import Mathlib

/-!
Verification of the code-block extractor of `scrapbox-userscript-std`
(`src/browser/websocket/getCodeBlocks.ts`).

Strings are modelled as `List Char`.  The three JavaScript regular
expressions used by the source are small enough that their backtracking
semantics can be resolved into deterministic Lean functions; each model
below documents the derivation from the regex it embeds.
-/

namespace Scrapbox

abbrev Str := List Char

/-- JS `\s`: space, tab, the line terminators, vertical tab, form feed and
the Unicode space characters. -/
def isWs (c : Char) : Bool :=
  c = ' ' || c = '\t' || c = '\n' || c = '\r' || c = '\x0b' || c = '\x0c' ||
  c = '\u00A0' || c = '\u1680' || ('\u2000' ≤ c && c ≤ '\u200A') ||
  c = '\u2028' || c = '\u2029' || c = '\u202F' || c = '\u205F' ||
  c = '\u3000' || c = '\uFEFF'

/-- JS `.` (no `s` flag): every character except the four line terminators. -/
def isDotChar (c : Char) : Bool :=
  !(c = '\n' || c = '\r' || c = '\u2028' || c = '\u2029')

/-- JS `String.prototype.trim`: strip `\s` characters from both ends. -/
def trimStr (s : Str) : Str :=
  ((s.dropWhile isWs).reverse.dropWhile isWs).reverse

/-- A line as delivered by the line source (`Line` of scrapbox-rest): an
identifier plus the raw text. -/
structure Line where
  id : Nat
  text : Str
deriving DecidableEq, Repr

/-- `TinyCodeBlock` of getCodeBlocks.ts. -/
structure TinyCodeBlock where
  filename : Str
  lang : Str
  titleLine : Line
  bodyLines : List Line
  nextLine : Option Line
deriving DecidableEq, Repr

/-- `GetCodeBlocksFilter` of getCodeBlocks.ts: both fields optional. -/
structure GetCodeBlocksFilter where
  filename : Option Str := none
  lang : Option Str := none
deriving DecidableEq, Repr

/-- `CodeTitle` of getCodeBlocks.ts. -/
structure CodeTitle where
  fileName : Str
  lang : Str
  indent : Nat
deriving DecidableEq, Repr

/-- Capture groups of a successful match of `^(\s*)code:(.+?)(\(.+\)){0,1}\s*$`.
`g3`, when present, contains the surrounding parentheses, exactly as a JS
capture group does. -/
structure TitleMatch where
  g1 : Str
  g2 : Str
  g3 : Option Str
deriving DecidableEq, Repr

/-- One occurrence of `(\(.+\))` starting at offset `ℓ` of `rest`, followed by
`\s*$`: an opening parenthesis at `ℓ`, a closing one at `j`, at least one
character between them, none of them a line terminator, and only whitespace
after `j`.  The greedy `.+` makes the engine pick the largest such `j`. -/
def g3Valid (rest : Str) (ℓ j : Nat) : Bool :=
  decide (ℓ + 2 ≤ j) && (rest[j]? == some ')') &&
  ((rest.drop (ℓ + 1)).take (j - (ℓ + 1))).all isDotChar &&
  (rest.drop (j + 1)).all isWs

/-- Try the one-occurrence branch of `(\(.+\)){0,1}\s*$` at offset `ℓ`:
requires `(` at `ℓ` and picks the largest valid closing position
(greedy `.+` backtracks from the right). -/
def tryG3 (rest : Str) (ℓ : Nat) : Option Str :=
  if rest[ℓ]? = some '(' then
    match ((List.range rest.length).filter (fun j => g3Valid rest ℓ j)).getLast? with
    | some j => some ((rest.drop ℓ).take (j - ℓ + 1))
    | none => none
  else none

/-- Try group 2 length `ℓ` of the lazy `(.+?)`: the candidate must contain no
line terminator; the greedy `{0,1}` prefers the one-occurrence branch of
group 3, and otherwise the remainder must be all whitespace (`\s*$`). -/
def tryLazyAt (rest : Str) (ℓ : Nat) : Option (Str × Option Str) :=
  if (rest.take ℓ).all isDotChar then
    match tryG3 rest ℓ with
    | some g3 => some (rest.take ℓ, some g3)
    | none =>
      if (rest.drop ℓ).all isWs then some (rest.take ℓ, none) else none
  else none

/-- The lazy `(.+?)` tries lengths `1, 2, …` in order; the first success wins. -/
def g2Search (rest : Str) : Option (Str × Option Str) :=
  (List.range' 1 rest.length).findSome? (tryLazyAt rest)

/-- Model of `lineText.match(/^(\s*)code:(.+?)(\(.+\)){0,1}\s*$/)`.
Since `c` is not a whitespace character, the greedy `(\s*)` can only be the
maximal whitespace run; `code:` must follow it literally. -/
def codeTitleMatch (s : Str) : Option TitleMatch :=
  if ((s.dropWhile isWs).take 5) = ("code:".toList) then
    match g2Search ((s.dropWhile isWs).drop 5) with
    | some (g2, g3) => some ⟨s.takeWhile isWs, g2, g3⟩
    | none => none
  else none

/-- Model of `fileName.match(/.+\.(.*)$/)`, returning capture group 1.
The greedy `.+` needs at least one character before the matched dot and
backtracks from the right, so the regex matches exactly when the input has a
dot at a position ≥ 1 (equivalently: the tail after the first character
contains a dot) and no line terminator; group 1 is then the suffix after the
last dot. -/
def extMatch (s : Str) : Option Str :=
  match s with
  | [] => none
  | a :: rest =>
    if (a :: rest).all isDotChar ∧ '.' ∈ rest then
      some (((a :: rest).reverse.takeWhile (fun c => c != '.')).reverse)
    else none

/-- `extractFromCodeTitle` of getCodeBlocks.ts. -/
def extractFromCodeTitle (lineText : Str) : Option CodeTitle :=
  match codeTitleMatch lineText with
  | none => none
  | some m =>
    match m.g3 with
    | none =>
      match extMatch (trimStr m.g2) with
      | none =>
        -- `code:ext`
        some ⟨trimStr m.g2, trimStr m.g2, m.g1.length⟩
      | some ext1 =>
        if ext1 = [] then
          -- `code:foo.` does not form a code block; reject
          none
        else
          -- `code:foo.ext`
          some ⟨trimStr m.g2, ext1, m.g1.length⟩
    | some g3 => some ⟨trimStr m.g2, g3, m.g1.length⟩

/-- JS truthiness of an optional string: `undefined` and `""` are falsy. -/
def strTruthy : Option Str → Bool
  | some (_ :: _) => true
  | _ => false

/-- `isMatchFilter` of getCodeBlocks.ts, including the truthiness tests of
`filter?.filename` and `filter?.lang`. -/
def isMatchFilter (codeTitle : CodeTitle) (filter : Option GetCodeBlocksFilter) :
    Bool :=
  if strTruthy (filter.bind GetCodeBlocksFilter.filename) = true ∧
      filter.bind GetCodeBlocksFilter.filename ≠ some codeTitle.fileName then
    false
  else if strTruthy (filter.bind GetCodeBlocksFilter.lang) = true ∧
      filter.bind GetCodeBlocksFilter.lang ≠ some codeTitle.lang then
    false
  else true

/-- `extractFromCodeBody` of getCodeBlocks.ts.  The regex `^(\s*)(.*)$`
matches iff the part after the maximal whitespace run contains no line
terminator; group 1 is then that whitespace run and group 2 the remainder.
On success the source returns
`indent.slice(indent.length - titleIndent) + body`, i.e. the last
`titleIndent` characters of the indentation followed by the remainder. -/
def extractFromCodeBody (lineText : Str) (titleIndent : Nat) : Option Str :=
  if ((lineText.dropWhile isWs).all isDotChar) = true then
    if (lineText.takeWhile isWs).length ≤ titleIndent then none
    else
      some ((lineText.takeWhile isWs).drop
              ((lineText.takeWhile isWs).length - titleIndent) ++
            lineText.dropWhile isWs)
  else none

/-- The mutable record `currentCode` of `getCodeBlocks`. -/
structure CurrentCode where
  isCodeBlock : Bool
  isCollect : Bool
  fileName : Str
  lang : Str
  indent : Nat
deriving DecidableEq, Repr

def initialCurrentCode : CurrentCode :=
  ⟨false, false, [], [], 0⟩

/-- `codeBlocks[codeBlocks.length - 1].bodyLines.push(line)`.  The
accumulator is kept in reverse order (head = most recently pushed block), so
the mutated last element is the head. -/
def pushBodyLine (line : Line) : List TinyCodeBlock → List TinyCodeBlock
  | [] => []
  | b :: rest => { b with bodyLines := b.bodyLines ++ [line] } :: rest

/-- `codeBlocks[codeBlocks.length - 1].nextLine = line`, on the reversed
accumulator. -/
def setNextLine (line : Line) : List TinyCodeBlock → List TinyCodeBlock
  | [] => []
  | b :: rest => { b with nextLine := some line } :: rest

/-- State carried across iterations of the `for (const line of lines)` loop:
`currentCode` plus the accumulated blocks, newest first. -/
abbrev ExtractState := CurrentCode × List TinyCodeBlock

/-- One iteration of the loop body of `getCodeBlocks`. -/
def getCodeBlocksStep (filter : Option GetCodeBlocksFilter) (st : ExtractState)
    (line : Line) : ExtractState :=
  if st.1.isCodeBlock then
    match extractFromCodeBody line.text st.1.indent with
    | none =>
      ({ st.1 with isCodeBlock := false },
       if st.1.isCollect then setNextLine line st.2 else st.2)
    | some _ =>
      (st.1, if st.1.isCollect then pushBodyLine line st.2 else st.2)
  else
    match extractFromCodeTitle line.text with
    | none => ({ st.1 with isCodeBlock := false }, st.2)
    | some matched =>
      (⟨true, isMatchFilter matched filter, matched.fileName, matched.lang,
        matched.indent⟩,
       if isMatchFilter matched filter then
         ⟨matched.fileName, matched.lang, line, [], none⟩ :: st.2
       else st.2)

/-- `getCodeBlocks` of getCodeBlocks.ts, on an already materialised line
sequence (the by-title fetch is external I/O and resolves to such a
sequence before parsing starts). -/
def getCodeBlocks (lines : List Line) (filter : Option GetCodeBlocksFilter) :
    List TinyCodeBlock :=
  ((lines.foldl (getCodeBlocksStep filter) (initialCurrentCode, [])).2).reverse

end Scrapbox


namespace Scrapbox

/-! ### Basic lemmas about the helper functions -/

theorem isMatchFilter_none (ct : CodeTitle) : isMatchFilter ct none = true := by
  simp [isMatchFilter, strTruthy, Option.bind]

theorem isMatchFilter_indent (f l : Str) (i j : Nat)
    (flt : Option GetCodeBlocksFilter) :
    isMatchFilter ⟨f, l, i⟩ flt = isMatchFilter ⟨f, l, j⟩ flt := rfl

/-- Whether an emitted block satisfies a filter: only its recorded filename
and lang are consulted (`isMatchFilter` never reads the indent). -/
def blockMatches (flt : GetCodeBlocksFilter) (b : TinyCodeBlock) : Bool :=
  isMatchFilter ⟨b.filename, b.lang, 0⟩ (some flt)

theorem blockMatches_pushBody (flt : GetCodeBlocksFilter) (b : TinyCodeBlock)
    (x : List Line) :
    blockMatches flt { b with bodyLines := x } = blockMatches flt b := rfl

theorem blockMatches_setNext (flt : GetCodeBlocksFilter) (b : TinyCodeBlock)
    (x : Option Line) :
    blockMatches flt { b with nextLine := x } = blockMatches flt b := rfl

theorem extractFromCodeBody_lt {s : Str} {T : Nat}
    (h : extractFromCodeBody s T ≠ none) : T < (s.takeWhile isWs).length := by
  by_contra hle
  apply h
  unfold extractFromCodeBody
  split
  · exact if_pos (by omega)
  · rfl

theorem extractFromCodeBody_eq_some (s : Str) (T : Nat)
    (hterm : (s.dropWhile isWs).all isDotChar = true)
    (hlt : T < (s.takeWhile isWs).length) :
    extractFromCodeBody s T =
      some ((s.takeWhile isWs).drop ((s.takeWhile isWs).length - T) ++
        s.dropWhile isWs) := by
  unfold extractFromCodeBody
  rw [if_pos hterm, if_neg (by omega)]

theorem codeTitleMatch_g1 {s : Str} {m : TitleMatch}
    (h : codeTitleMatch s = some m) : m.g1 = s.takeWhile isWs := by
  unfold codeTitleMatch at h
  split at h
  · split at h
    · injection h with h2
      rw [← h2]
    · cases h
  · cases h

theorem extractFromCodeTitle_indent {s : Str} {ct : CodeTitle}
    (h : extractFromCodeTitle s = some ct) :
    ct.indent = (s.takeWhile isWs).length := by
  unfold extractFromCodeTitle at h
  split at h
  · cases h
  next m heq =>
    have hg1 := codeTitleMatch_g1 heq
    split at h
    · split at h
      · injection h with h2
        rw [← h2]
        simpa using congrArg List.length hg1
      · split at h
        · cases h
        · injection h with h2
          rw [← h2]
          simpa using congrArg List.length hg1
    · injection h with h2
      rw [← h2]
      simpa using congrArg List.length hg1

end Scrapbox

namespace Scrapbox

/-! ### The structural invariant of the accumulation loop

`ClosedGood` describes a block whose terminator has been seen: its title
line, body lines and next line sit consecutively inside the processed lines,
every body line passed the body test at the title's indent, and the next
line failed it.  `OpenGood` describes the block still being collected: its
title line and body lines form a suffix of the processed lines. -/

def ClosedGood (lines : List Line) (b : TinyCodeBlock) : Prop :=
  ∃ ct nl, extractFromCodeTitle b.titleLine.text = some ct ∧
    b.nextLine = some nl ∧
    (∀ l ∈ b.bodyLines, extractFromCodeBody l.text ct.indent ≠ none) ∧
    extractFromCodeBody nl.text ct.indent = none ∧
    ∃ pre post, lines = pre ++ (b.titleLine :: (b.bodyLines ++ [nl])) ++ post

def OpenGood (lines : List Line) (cur : CurrentCode) (b : TinyCodeBlock) :
    Prop :=
  ∃ ct, extractFromCodeTitle b.titleLine.text = some ct ∧
    ct.indent = cur.indent ∧
    b.filename = cur.fileName ∧ b.lang = cur.lang ∧
    b.nextLine = none ∧
    (∀ l ∈ b.bodyLines, extractFromCodeBody l.text ct.indent ≠ none) ∧
    ∃ pre, lines = pre ++ (b.titleLine :: b.bodyLines)

def StateGood (processed : List Line) (st : ExtractState) : Prop :=
  (st.1.isCodeBlock = true ∧ st.1.isCollect = true →
    ∃ b t, st.2 = b :: t ∧ OpenGood processed st.1 b ∧
      ∀ b' ∈ t, ClosedGood processed b') ∧
  (¬(st.1.isCodeBlock = true ∧ st.1.isCollect = true) →
    ∀ b' ∈ st.2, ClosedGood processed b') ∧
  List.Sublist (st.2.reverse.map (fun b => b.titleLine)) processed

theorem ClosedGood.mono {processed : List Line} {b : TinyCodeBlock}
    (h : ClosedGood processed b) (tail : List Line) :
    ClosedGood (processed ++ tail) b := by
  obtain ⟨ct, nl, h1, h2, h3, h4, pre, post, h5⟩ := h
  exact ⟨ct, nl, h1, h2, h3, h4, pre, post ++ tail, by rw [h5]; simp⟩

theorem map_titleLine_setNextLine (l : Line) (bs : List TinyCodeBlock) :
    (setNextLine l bs).map (fun b => b.titleLine) =
      bs.map (fun b => b.titleLine) := by
  cases bs <;> rfl

theorem map_titleLine_pushBodyLine (l : Line) (bs : List TinyCodeBlock) :
    (pushBodyLine l bs).map (fun b => b.titleLine) =
      bs.map (fun b => b.titleLine) := by
  cases bs <;> rfl

theorem sublist_extend {xs processed : List Line} (l : Line)
    (h : List.Sublist xs processed) : List.Sublist xs (processed ++ [l]) :=
  h.trans (List.sublist_append_left processed [l])

end Scrapbox

namespace Scrapbox

theorem revmap_setNextLine (l : Line) (bs : List TinyCodeBlock) :
    (setNextLine l bs).reverse.map (fun b => b.titleLine) =
      bs.reverse.map (fun b => b.titleLine) := by
  cases bs with
  | nil => rfl
  | cons b t => simp [setNextLine]

theorem revmap_pushBodyLine (l : Line) (bs : List TinyCodeBlock) :
    (pushBodyLine l bs).reverse.map (fun b => b.titleLine) =
      bs.reverse.map (fun b => b.titleLine) := by
  cases bs with
  | nil => rfl
  | cons b t => simp [pushBodyLine]

theorem step_eq_body_none (flt : Option GetCodeBlocksFilter) (st : ExtractState)
    (line : Line) (hcb : st.1.isCodeBlock = true)
    (hbody : extractFromCodeBody line.text st.1.indent = none) :
    getCodeBlocksStep flt st line =
      ({ st.1 with isCodeBlock := false },
       if st.1.isCollect then setNextLine line st.2 else st.2) := by
  unfold getCodeBlocksStep
  rw [if_pos hcb, hbody]

theorem step_eq_body_some (flt : Option GetCodeBlocksFilter) (st : ExtractState)
    (line : Line) (hcb : st.1.isCodeBlock = true) (body : Str)
    (hbody : extractFromCodeBody line.text st.1.indent = some body) :
    getCodeBlocksStep flt st line =
      (st.1, if st.1.isCollect then pushBodyLine line st.2 else st.2) := by
  unfold getCodeBlocksStep
  rw [if_pos hcb, hbody]

theorem step_eq_title_none (flt : Option GetCodeBlocksFilter) (st : ExtractState)
    (line : Line) (hcb : st.1.isCodeBlock = false)
    (hti : extractFromCodeTitle line.text = none) :
    getCodeBlocksStep flt st line =
      ({ st.1 with isCodeBlock := false }, st.2) := by
  unfold getCodeBlocksStep
  rw [if_neg (by simp [hcb]), hti]

theorem step_eq_title_some (flt : Option GetCodeBlocksFilter) (st : ExtractState)
    (line : Line) (hcb : st.1.isCodeBlock = false) (matched : CodeTitle)
    (hti : extractFromCodeTitle line.text = some matched) :
    getCodeBlocksStep flt st line =
      (⟨true, isMatchFilter matched flt, matched.fileName, matched.lang,
        matched.indent⟩,
       if isMatchFilter matched flt then
         ⟨matched.fileName, matched.lang, line, [], none⟩ :: st.2
       else st.2) := by
  unfold getCodeBlocksStep
  rw [if_neg (by simp [hcb]), hti]

theorem stepGood (flt : Option GetCodeBlocksFilter) (processed : List Line)
    (cur : CurrentCode) (blocks : List TinyCodeBlock) (line : Line)
    (h : StateGood processed (cur, blocks)) :
    StateGood (processed ++ [line]) (getCodeBlocksStep flt (cur, blocks) line) := by
  obtain ⟨hopen, hclosed, hsub⟩ := h
  by_cases hcb : cur.isCodeBlock = true
  · cases hbody : extractFromCodeBody line.text cur.indent with
    | none =>
      rw [step_eq_body_none flt (cur, blocks) line hcb hbody]
      by_cases hco : cur.isCollect = true
      · obtain ⟨b, t, hbt, hob, hct⟩ := hopen ⟨hcb, hco⟩
        subst hbt
        rw [if_pos hco]
        refine ⟨?_, ?_, ?_⟩
        · rintro ⟨h1, -⟩
          simp at h1
        · intro _ b' hb'
          simp only [setNextLine] at hb'
          rcases List.mem_cons.mp hb' with rfl | hmem
          · obtain ⟨ct, hct1, hct2, hfn, hlg, hnl, hbo, pre, hpre⟩ := hob
            exact ⟨ct, line, hct1, rfl, hbo, by rw [hct2]; exact hbody,
              pre, [], by simp [hpre]⟩
          · exact (hct _ hmem).mono [line]
        · rw [revmap_setNextLine]
          exact sublist_extend line hsub
      · rw [if_neg hco]
        have hcl := hclosed (fun hx => hco hx.2)
        refine ⟨?_, ?_, ?_⟩
        · rintro ⟨h1, -⟩
          simp at h1
        · intro _ b' hb'
          exact (hcl b' hb').mono [line]
        · exact sublist_extend line hsub
    | some body =>
      rw [step_eq_body_some flt (cur, blocks) line hcb body hbody]
      by_cases hco : cur.isCollect = true
      · obtain ⟨b, t, hbt, hob, hct⟩ := hopen ⟨hcb, hco⟩
        subst hbt
        rw [if_pos hco]
        refine ⟨?_, ?_, ?_⟩
        · intro _
          refine ⟨{ b with bodyLines := b.bodyLines ++ [line] }, t,
            by simp [pushBodyLine], ?_, fun b' hb' => (hct b' hb').mono [line]⟩
          obtain ⟨ct, hct1, hct2, hfn, hlg, hnl, hbo, pre, hpre⟩ := hob
          refine ⟨ct, hct1, hct2, hfn, hlg, hnl, ?_, pre, by simp [hpre]⟩
          intro l hl
          rcases List.mem_append.mp hl with hl | hl
          · exact hbo l hl
          · rcases List.mem_singleton.mp hl with rfl
            rw [hct2, hbody]
            simp
        · intro hn
          exact absurd ⟨hcb, hco⟩ hn
        · rw [revmap_pushBodyLine]
          exact sublist_extend line hsub
      · rw [if_neg hco]
        have hcl := hclosed (fun hx => hco hx.2)
        refine ⟨?_, ?_, ?_⟩
        · rintro ⟨-, h2⟩
          exact absurd h2 hco
        · intro _ b' hb'
          exact (hcl b' hb').mono [line]
        · exact sublist_extend line hsub
  · have hcb' : cur.isCodeBlock = false := by simpa using hcb
    have hcl := hclosed (fun hx => hcb hx.1)
    cases hti : extractFromCodeTitle line.text with
    | none =>
      rw [step_eq_title_none flt (cur, blocks) line hcb' hti]
      refine ⟨?_, ?_, ?_⟩
      · rintro ⟨h1, -⟩
        simp at h1
      · intro _ b' hb'
        exact (hcl b' hb').mono [line]
      · exact sublist_extend line hsub
    | some matched =>
      rw [step_eq_title_some flt (cur, blocks) line hcb' matched hti]
      by_cases hq : isMatchFilter matched flt = true
      · rw [if_pos hq]
        refine ⟨?_, ?_, ?_⟩
        · intro _
          refine ⟨⟨matched.fileName, matched.lang, line, [], none⟩, blocks, rfl,
            ?_, fun b' hb' => (hcl b' hb').mono [line]⟩
          exact ⟨matched, hti, rfl, rfl, rfl, rfl, by simp, processed, by simp⟩
        · intro hn
          exact absurd ⟨rfl, hq⟩ hn
        · simp only [List.reverse_cons, List.map_append, List.map_cons,
            List.map_nil]
          exact List.Sublist.append hsub (List.Sublist.refl [line])
      · rw [if_neg hq]
        refine ⟨?_, ?_, ?_⟩
        · rintro ⟨-, h2⟩
          exact absurd h2 hq
        · intro _ b' hb'
          exact (hcl b' hb').mono [line]
        · exact sublist_extend line hsub

end Scrapbox

namespace Scrapbox

theorem foldGood (flt : Option GetCodeBlocksFilter) :
    ∀ (remaining processed : List Line) (st : ExtractState),
      StateGood processed st →
      StateGood (processed ++ remaining)
        (remaining.foldl (getCodeBlocksStep flt) st) := by
  intro remaining
  induction remaining with
  | nil => intro processed st h; simpa using h
  | cons a rem ih =>
    intro processed st h
    have h1 := stepGood flt processed st.1 st.2 a h
    have h2 := ih (processed ++ [a]) (getCodeBlocksStep flt st a) h1
    simpa [List.append_assoc] using h2

theorem initialGood : StateGood [] (initialCurrentCode, ([] : List TinyCodeBlock)) := by
  refine ⟨?_, ?_, ?_⟩
  · rintro ⟨h1, -⟩
    simp [initialCurrentCode] at h1
  · intro _ b hb
    cases hb
  · simp

theorem getCodeBlocks_stateGood (lines : List Line)
    (flt : Option GetCodeBlocksFilter) :
    StateGood lines (lines.foldl (getCodeBlocksStep flt)
      (initialCurrentCode, [])) := by
  have h := foldGood flt lines [] (initialCurrentCode, []) initialGood
  simpa using h

/-- Every block returned by `getCodeBlocks` is either closed (its pieces sit
consecutively inside the input) or still open at the end of the input (its
pieces form a suffix of the input). -/
theorem getCodeBlocks_good (lines : List Line)
    (flt : Option GetCodeBlocksFilter) (b : TinyCodeBlock)
    (hb : b ∈ getCodeBlocks lines flt) :
    ClosedGood lines b ∨ ∃ cur, OpenGood lines cur b := by
  obtain ⟨hopen, hclosed, -⟩ := getCodeBlocks_stateGood lines flt
  set st := lines.foldl (getCodeBlocksStep flt) (initialCurrentCode, []) with hst
  have hb' : b ∈ st.2 := by
    have := hb
    unfold getCodeBlocks at this
    rw [← hst] at this
    exact List.mem_reverse.mp this
  by_cases hoc : st.1.isCodeBlock = true ∧ st.1.isCollect = true
  · obtain ⟨b0, t, hbt, hob, hct⟩ := hopen hoc
    rw [hbt] at hb'
    rcases List.mem_cons.mp hb' with rfl | hmem
    · exact Or.inr ⟨st.1, hob⟩
    · exact Or.inl (hct _ hmem)
  · exact Or.inl (hclosed hoc _ hb')

end Scrapbox

namespace Scrapbox

/-! ### Filtered runs versus the unfiltered run

The loop's control flow (title recognition, body classification, indent
tracking) never depends on the filter; only whether a recognized block is
pushed and subsequently updated does.  `FiltRel` relates the state of the
run with filter `some flt` to the state of the run with no filter. -/

def FiltRel (flt : GetCodeBlocksFilter) (stU stF : ExtractState) : Prop :=
  stF.1.isCodeBlock = stU.1.isCodeBlock ∧
  stF.1.indent = stU.1.indent ∧
  (stU.1.isCodeBlock = true →
    stU.1.isCollect = true ∧
    ∃ b t, stU.2 = b :: t ∧ blockMatches flt b = stF.1.isCollect ∧
      stF.2 = (if stF.1.isCollect = true then
        b :: t.filter (blockMatches flt) else t.filter (blockMatches flt))) ∧
  (stU.1.isCodeBlock = false → stF.2 = stU.2.filter (blockMatches flt))

theorem blockMatches_eq_isMatchFilter (flt : GetCodeBlocksFilter)
    (matched : CodeTitle) (line : Line) :
    blockMatches flt ⟨matched.fileName, matched.lang, line, [], none⟩ =
      isMatchFilter matched (some flt) := rfl


theorem filtRel_step (flt : GetCodeBlocksFilter) (line : Line)
    (cu cf : CurrentCode) (bu bf : List TinyCodeBlock)
    (h : FiltRel flt (cu, bu) (cf, bf)) :
    FiltRel flt (getCodeBlocksStep none (cu, bu) line)
      (getCodeBlocksStep (some flt) (cf, bf) line) := by
  obtain ⟨hcb, hind, hin, hout⟩ := h
  dsimp only at hcb hind hin hout
  by_cases hu : cu.isCodeBlock = true
  · obtain ⟨hcol, b, t, hbt, hmb, hbf⟩ := hin hu
    have hf : cf.isCodeBlock = true := by rw [hcb]; exact hu
    cases hbody : extractFromCodeBody line.text cu.indent with
    | none =>
      rw [step_eq_body_none none (cu, bu) line hu hbody,
        step_eq_body_none (some flt) (cf, bf) line hf (by dsimp only; rw [hind]; exact hbody)]
      dsimp only
      rw [if_pos hcol]
      refine ⟨rfl, hind, ?_, ?_⟩
      · intro h1
        simp at h1
      · intro _
        rw [hbt]
        by_cases hq : cf.isCollect = true
        · rw [if_pos hq] at hbf
          rw [if_pos hq, hbf]
          simp only [setNextLine, List.filter_cons]
          rw [blockMatches_setNext, hmb, hq]
          simp
        · rw [if_neg hq] at hbf
          rw [if_neg hq, hbf]
          simp only [setNextLine, List.filter_cons]
          rw [blockMatches_setNext, hmb]
          simp only [Bool.not_eq_true] at hq
          rw [hq]
          simp
    | some body =>
      rw [step_eq_body_some none (cu, bu) line hu body hbody,
        step_eq_body_some (some flt) (cf, bf) line hf body
          (by dsimp only; rw [hind]; exact hbody)]
      dsimp only
      rw [if_pos hcol]
      refine ⟨hcb, hind, ?_, ?_⟩
      · intro _
        refine ⟨hcol, { b with bodyLines := b.bodyLines ++ [line] }, t,
          by rw [hbt]; rfl, ?_, ?_⟩
        · rw [blockMatches_pushBody]
          exact hmb
        · by_cases hq : cf.isCollect = true
          · rw [if_pos hq] at hbf ⊢
            rw [if_pos hq, hbf]
            simp [pushBodyLine]
          · rw [if_neg hq] at hbf ⊢
            rw [if_neg hq, hbf]
      · intro h1
        rw [hu] at h1
        cases h1
  · have hu' : cu.isCodeBlock = false := by simpa using hu
    have hf' : cf.isCodeBlock = false := by rw [hcb]; exact hu'
    have hbu : bf = bu.filter (blockMatches flt) := hout hu'
    cases hti : extractFromCodeTitle line.text with
    | none =>
      rw [step_eq_title_none none (cu, bu) line hu' hti,
        step_eq_title_none (some flt) (cf, bf) line hf' hti]
      dsimp only
      refine ⟨rfl, hind, ?_, fun _ => hbu⟩
      intro h1
      simp at h1
    | some matched =>
      rw [step_eq_title_some none (cu, bu) line hu' matched hti,
        step_eq_title_some (some flt) (cf, bf) line hf' matched hti,
        if_pos (isMatchFilter_none matched)]
      dsimp only
      refine ⟨rfl, rfl, ?_, ?_⟩
      · intro _
        refine ⟨rfl, ⟨matched.fileName, matched.lang, line, [], none⟩, bu,
          rfl, blockMatches_eq_isMatchFilter flt matched line, ?_⟩
        by_cases hq : isMatchFilter matched (some flt) = true
        · rw [if_pos hq, if_pos hq, hbu]
        · rw [if_neg hq, if_neg hq, hbu]
      · intro h1
        cases h1

end Scrapbox

namespace Scrapbox

theorem filtRel_fold (flt : GetCodeBlocksFilter) :
    ∀ (lines : List Line) (stU stF : ExtractState), FiltRel flt stU stF →
      FiltRel flt (lines.foldl (getCodeBlocksStep none) stU)
        (lines.foldl (getCodeBlocksStep (some flt)) stF) := by
  intro lines
  induction lines with
  | nil => intro stU stF h; exact h
  | cons a rest ih =>
    intro stU stF h
    exact ih _ _ (filtRel_step flt a stU.1 stF.1 stU.2 stF.2 h)

theorem filtRel_initial (flt : GetCodeBlocksFilter) :
    FiltRel flt (initialCurrentCode, []) (initialCurrentCode, []) := by
  refine ⟨rfl, rfl, ?_, ?_⟩
  · intro h1
    simp [initialCurrentCode] at h1
  · intro _
    rfl

theorem filtRel_blocks {flt : GetCodeBlocksFilter} {stU stF : ExtractState}
    (h : FiltRel flt stU stF) : stF.2 = stU.2.filter (blockMatches flt) := by
  obtain ⟨hcb, hind, hin, hout⟩ := h
  by_cases hu : stU.1.isCodeBlock = true
  · obtain ⟨hcol, b, t, hbt, hmb, hbf⟩ := hin hu
    rw [hbt, List.filter_cons]
    by_cases hq : stF.1.isCollect = true
    · rw [if_pos hq] at hbf
      rw [hbf, hmb, hq]
      simp
    · rw [if_neg hq] at hbf
      rw [hbf, hmb]
      simp only [Bool.not_eq_true] at hq
      rw [hq]
      simp
  · exact hout (by simpa using hu)

theorem filter_reverse_comm (p : TinyCodeBlock → Bool) :
    ∀ (l : List TinyCodeBlock), l.reverse.filter p = (l.filter p).reverse := by
  intro l
  induction l with
  | nil => rfl
  | cons a rest ih =>
    simp only [List.reverse_cons, List.filter_append, List.filter_cons,
      List.filter_nil, ih]
    cases hp : p a <;> simp

/-- Master correspondence: running `getCodeBlocks` with a filter returns
exactly the blocks of the unfiltered run whose filename and lang satisfy the
filter, unchanged. -/
theorem getCodeBlocks_filter (lines : List Line) (flt : GetCodeBlocksFilter) :
    getCodeBlocks lines (some flt) =
      (getCodeBlocks lines none).filter (blockMatches flt) := by
  have h := filtRel_blocks
    (filtRel_fold flt lines (initialCurrentCode, []) (initialCurrentCode, [])
      (filtRel_initial flt))
  unfold getCodeBlocks
  rw [h, filter_reverse_comm]

end Scrapbox

namespace Scrapbox

/-- A line that either is not a code-block title or whose title fails the
filter. -/
def noMatchLine (flt : Option GetCodeBlocksFilter) (l : Line) : Bool :=
  match extractFromCodeTitle l.text with
  | none => true
  | some ct => !(isMatchFilter ct flt)

theorem noCollect_fold (flt : Option GetCodeBlocksFilter) :
    ∀ (lines : List Line) (cur : CurrentCode) (blocks : List TinyCodeBlock),
      (∀ l ∈ lines, noMatchLine flt l = true) →
      (cur.isCodeBlock = true → cur.isCollect = false) →
      (lines.foldl (getCodeBlocksStep flt) (cur, blocks)).2 = blocks := by
  intro lines
  induction lines with
  | nil => intro cur blocks _ _; rfl
  | cons a rest ih =>
    intro cur blocks hall hcur
    have hrest : ∀ l ∈ rest, noMatchLine flt l = true :=
      fun l hl => hall l (List.mem_cons_of_mem a hl)
    have ha : noMatchLine flt a = true := hall a (List.mem_cons_self a rest)
    by_cases hcb : cur.isCodeBlock = true
    · have hco : cur.isCollect = false := hcur hcb
      cases hbody : extractFromCodeBody a.text cur.indent with
      | none =>
        rw [List.foldl_cons, step_eq_body_none flt (cur, blocks) a hcb hbody]
        dsimp only
        rw [hco]
        simp only [Bool.false_eq_true, if_false]
        exact ih _ _ hrest (by intro h1; simp at h1)
      | some body =>
        rw [List.foldl_cons, step_eq_body_some flt (cur, blocks) a hcb body hbody]
        dsimp only
        rw [hco]
        simp only [Bool.false_eq_true, if_false]
        exact ih _ _ hrest hcur
    · have hcb' : cur.isCodeBlock = false := by simpa using hcb
      cases hti : extractFromCodeTitle a.text with
      | none =>
        rw [List.foldl_cons, step_eq_title_none flt (cur, blocks) a hcb' hti]
        dsimp only
        exact ih _ _ hrest (by intro h1; simp at h1)
      | some matched =>
        have hnm : isMatchFilter matched flt = false := by
          unfold noMatchLine at ha
          rw [hti] at ha
          simpa using ha
        rw [List.foldl_cons, step_eq_title_some flt (cur, blocks) a hcb' matched hti]
        dsimp only
        rw [hnm]
        simp only [Bool.false_eq_true, if_false]
        exact ih _ _ hrest (by intro _; rfl)

end Scrapbox

namespace Scrapbox

/-! ### Lemmas about the extension regex model -/

theorem dropWhile_head_not (q : Char → Bool) :
    ∀ (r : List Char) (c : Char) (u : List Char),
      r.dropWhile q = c :: u → q c = false := by
  intro r
  induction r with
  | nil => intro c u h; cases h
  | cons a rest ih =>
    intro c u h
    rw [List.dropWhile_cons] at h
    split at h
    · exact ih c u h
    next hq =>
      injection h with h1 h2
      subst h1
      simpa using hq

theorem extMatch_eq_pos (a : Char) (rest : Str)
    (h : ((a :: rest).all isDotChar = true) ∧ '.' ∈ rest) :
    extMatch (a :: rest) =
      some (((a :: rest).reverse.takeWhile (fun c => c != '.')).reverse) := by
  unfold extMatch
  exact if_pos h

theorem extMatch_eq_neg (a : Char) (rest : Str)
    (h : ¬(((a :: rest).all isDotChar = true) ∧ '.' ∈ rest)) :
    extMatch (a :: rest) = none := by
  unfold extMatch
  exact if_neg h

theorem extMatch_decomp {fn ext1 : Str} (h : extMatch fn = some ext1) :
    (∃ pre, fn = pre ++ '.' :: ext1) ∧ ∀ c ∈ ext1, ¬(c = '.') := by
  cases fn with
  | nil => cases h
  | cons a rest =>
    by_cases hcond : ((a :: rest).all isDotChar = true) ∧ '.' ∈ rest
    · rw [extMatch_eq_pos a rest hcond] at h
      injection h with h1
      have hmem : '.' ∈ (a :: rest).reverse := by
        rw [List.mem_reverse]
        exact List.mem_cons_of_mem a hcond.2
      have hdw : (a :: rest).reverse.dropWhile (fun c => c != '.') ≠ [] := by
        intro hnil
        have h2 := List.takeWhile_append_dropWhile (fun c => c != '.')
          ((a :: rest).reverse)
        rw [hnil, List.append_nil] at h2
        rw [← h2] at hmem
        have hq := List.mem_takeWhile_imp hmem
        simp at hq
      obtain ⟨c, u, hcu⟩ := List.exists_cons_of_ne_nil hdw
      have hc : (c != '.') = false := dropWhile_head_not _ _ c u hcu
      have hcdot : c = '.' := by simpa using hc
      subst hcdot
      have hsplit := List.takeWhile_append_dropWhile (fun c => c != '.')
        ((a :: rest).reverse)
      rw [hcu] at hsplit
      constructor
      · refine ⟨u.reverse, ?_⟩
        have hfn : (a :: rest) = ((a :: rest).reverse).reverse := by
          rw [List.reverse_reverse]
        rw [hfn, ← hsplit, List.reverse_append, List.reverse_cons, h1]
        simp
      · intro c hc2
        rw [← h1, List.mem_reverse] at hc2
        have := List.mem_takeWhile_imp hc2
        simpa using this
    · rw [extMatch_eq_neg a rest hcond] at h
      cases h

theorem extMatch_some_mem {fn ext1 : Str} (h : extMatch fn = some ext1) :
    '.' ∈ fn.drop 1 := by
  cases fn with
  | nil => cases h
  | cons a rest =>
    by_cases hcond : ((a :: rest).all isDotChar = true) ∧ '.' ∈ rest
    · exact hcond.2
    · rw [extMatch_eq_neg a rest hcond] at h
      cases h

theorem extMatch_none_mem {fn : Str} (hall : fn.all isDotChar = true)
    (h : extMatch fn = none) : ¬('.' ∈ fn.drop 1) := by
  cases fn with
  | nil => simp
  | cons a rest =>
    intro hmem
    rw [extMatch_eq_pos a rest ⟨hall, hmem⟩] at h
    cases h

theorem extMatch_nil_getLast {fn : Str} (h : extMatch fn = some []) :
    fn.getLast? = some '.' := by
  obtain ⟨⟨pre, hpre⟩, -⟩ := extMatch_decomp h
  rw [hpre]
  exact List.getLast?_concat pre

theorem extMatch_ne_nil_getLast {fn ext1 : Str} (h : extMatch fn = some ext1)
    (hne : ext1 ≠ []) : fn.getLast? ≠ some '.' := by
  obtain ⟨⟨pre, hpre⟩, hall⟩ := extMatch_decomp h
  cases hgl : ext1.getLast? with
  | none => exact absurd (List.getLast?_eq_none_iff.mp hgl) hne
  | some x =>
    obtain ⟨ys, hys⟩ := List.getLast?_eq_some_iff.mp hgl
    have hx : x ∈ ext1 := List.mem_of_getLast?_eq_some hgl
    have hxd : ¬(x = '.') := hall x hx
    rw [hpre, hys]
    intro hcon
    rw [show pre ++ '.' :: (ys ++ [x]) = (pre ++ '.' :: ys) ++ [x] by simp,
      List.getLast?_concat] at hcon
    exact hxd (Option.some.inj hcon)

end Scrapbox

namespace Scrapbox

theorem tryLazyAt_all {rest : Str} {ℓ : Nat} {g2 : Str} {g3 : Option Str}
    (h : tryLazyAt rest ℓ = some (g2, g3)) : g2.all isDotChar = true := by
  by_cases hall : (rest.take ℓ).all isDotChar = true
  · unfold tryLazyAt at h
    rw [if_pos hall] at h
    cases htr : tryG3 rest ℓ with
    | some g3' =>
      rw [htr] at h
      injection h with h1
      have h2 := congrArg Prod.fst h1
      dsimp at h2
      rw [← h2]
      exact hall
    | none =>
      rw [htr] at h
      by_cases hws : (rest.drop ℓ).all isWs = true
      · rw [if_pos hws] at h
        injection h with h1
        have h2 := congrArg Prod.fst h1
        dsimp at h2
        rw [← h2]
        exact hall
      · rw [if_neg hws] at h
        cases h
  · unfold tryLazyAt at h
    rw [if_neg hall] at h
    cases h

theorem codeTitleMatch_g2_all {s : Str} {m : TitleMatch}
    (h : codeTitleMatch s = some m) : m.g2.all isDotChar = true := by
  unfold codeTitleMatch at h
  split at h
  · split at h
    next g2 g3 heq =>
      injection h with h1
      unfold g2Search at heq
      obtain ⟨ℓ, hmem, htl⟩ := List.exists_of_findSome?_eq_some heq
      rw [← h1]
      exact tryLazyAt_all htl
    next => cases h
  · cases h

theorem trimStr_all {s : Str} {p : Char → Bool} (h : s.all p = true) :
    (trimStr s).all p = true := by
  rw [List.all_eq_true] at h ⊢
  intro x hx
  apply h
  unfold trimStr at hx
  rw [List.mem_reverse] at hx
  have hx2 : x ∈ (s.dropWhile isWs).reverse :=
    List.Sublist.mem hx (List.dropWhile_sublist _)
  rw [List.mem_reverse] at hx2
  exact List.Sublist.mem hx2 (List.dropWhile_sublist _)

theorem extractFromCodeTitle_noTag {s : Str} {m : TitleMatch}
    (hm : codeTitleMatch s = some m) (hg3 : m.g3 = none) :
    extractFromCodeTitle s =
      (match extMatch (trimStr m.g2) with
       | none => some ⟨trimStr m.g2, trimStr m.g2, m.g1.length⟩
       | some ext1 =>
         if ext1 = [] then none
         else some ⟨trimStr m.g2, ext1, m.g1.length⟩) := by
  unfold extractFromCodeTitle
  rw [hm]
  dsimp only
  rw [hg3]

end Scrapbox

namespace Scrapbox

/-! ### The claims -/

/-- C1: the specification says a line that terminates an open code block is
re-examined as a potential new title in the same pass, so
`["code:d.py", "code:e.py", "  z"]` with filter `{lang: "py"}` should give
two blocks.  The loop instead executes `continue` after closing a block and
never re-examines the terminator line: it returns exactly one block
(`d.py`, empty body, nextLine = the `code:e.py` line); the `e.py` block is
never opened, contradicting the function's own documentation that it
retrieves all code blocks. -/
theorem claim_C1_eval :
    getCodeBlocks
      [⟨0, "code:d.py".toList⟩, ⟨1, "code:e.py".toList⟩, ⟨2, "  z".toList⟩]
      (some ⟨none, some ("py".toList)⟩) =
    [⟨"d.py".toList, "py".toList, ⟨0, "code:d.py".toList⟩, [],
      some ⟨1, "code:e.py".toList⟩⟩] := by decide

/-- C2: the specification says the parenthesized tag's inner text (parens
stripped) becomes the lang, so `["  code:b(js)", "    x=1", "  y"]` should
give lang `js`.  The code assigns the raw capture group `matched[3]`, which
includes the parentheses: the returned block has lang `(js)`, contradicting
the declared meaning of the `lang` field (the language name used for syntax
highlighting) and making a `{lang: "js"}` filter unable to match it. -/
theorem claim_C2_eval :
    getCodeBlocks [⟨0, "  code:b(js)".toList⟩, ⟨1, "    x=1".toList⟩,
      ⟨2, "  y".toList⟩] none =
    [⟨"b".toList, "(js)".toList, ⟨0, "  code:b(js)".toList⟩,
      [⟨1, "    x=1".toList⟩], some ⟨2, "  y".toList⟩⟩] ∧
    ("(js)".toList ≠ "js".toList) := by decide

/-- C3 counterexample: for line `" x"` (indentation length I = 1) and title
indent T = 0 the claim demands a body text keeping I − T = 1 indentation
character, i.e. `" x"`; `extractFromCodeBody` returns `"x"` (it keeps the
last T = 0 indentation characters, dropping I − T). -/
theorem claim_C3_counterexample :
    extractFromCodeBody (" x".toList) 0 = some ("x".toList) ∧
    extractFromCodeBody (" x".toList) 0 ≠ some (" x".toList) := by decide

/-- C3 amended: if I ≤ T the helper classifies the line as a terminator
(returns no body text); otherwise, for a line whose part after the
indentation contains no line terminator, it returns a body text formed by
dropping the FIRST I − T characters of the captured indentation — keeping
exactly the last T indentation characters — followed by the non-indentation
remainder. -/
theorem claim_C3_amended (s : Str) (T : Nat) :
    ((s.takeWhile isWs).length ≤ T → extractFromCodeBody s T = none) ∧
    ((s.dropWhile isWs).all isDotChar = true →
      T < (s.takeWhile isWs).length →
      extractFromCodeBody s T =
        some ((s.takeWhile isWs).drop ((s.takeWhile isWs).length - T) ++
          s.dropWhile isWs) ∧
      ((s.takeWhile isWs).drop ((s.takeWhile isWs).length - T)).length = T) := by
  constructor
  · intro hle
    unfold extractFromCodeBody
    by_cases hterm : ((s.dropWhile isWs).all isDotChar) = true
    · rw [if_pos hterm, if_pos hle]
    · rw [if_neg hterm]
  · intro hterm hlt
    refine ⟨extractFromCodeBody_eq_some s T hterm hlt, ?_⟩
    rw [List.length_drop]
    omega

theorem claim_C3_witness :
    extractFromCodeBody ("   x".toList) 5 = none ∧
    extractFromCodeBody ("   x".toList) 1 = some (" x".toList) := by
  constructor
  · exact (claim_C3_amended ("   x".toList) 5).1 (by decide)
  · exact (((claim_C3_amended ("   x".toList) 1).2 (by decide)
      (by decide)).1).trans (by decide)

/-- C4 counterexample: the loop pushes the original `Line` object, not the
computed body text; for `["code:a.txt", "  hello", "  world", "done"]` the
returned block's bodyLines carry the texts `"  hello"`, `"  world"`, not
`"hello"`, `"world"` as the claim states. -/
theorem claim_C4_counterexample :
    ((getCodeBlocks [⟨0, "code:a.txt".toList⟩, ⟨1, "  hello".toList⟩,
        ⟨2, "  world".toList⟩, ⟨3, "done".toList⟩] none).map
      (fun b => b.bodyLines.map (fun l => l.text))) =
      [["  hello".toList, "  world".toList]] ∧
    ([["  hello".toList, "  world".toList]] ≠
      [["hello".toList, "world".toList]]) := by decide

/-- C4 amended: every entry appended to bodyLines is an original input line,
its text unchanged (the title's indentation is NOT removed); in particular
for `["code:a.txt", "  hello", "  world", "done"]` with no filter the result
is one block with filename `a.txt`, lang `txt`, bodyLines the original
`"  hello"`/`"  world"` lines, and nextLine the `"done"` line. -/
theorem claim_C4_amended :
    (∀ (lines : List Line) (flt : Option GetCodeBlocksFilter)
        (b : TinyCodeBlock), b ∈ getCodeBlocks lines flt →
        ∀ l ∈ b.bodyLines, l ∈ lines) ∧
    getCodeBlocks [⟨0, "code:a.txt".toList⟩, ⟨1, "  hello".toList⟩,
        ⟨2, "  world".toList⟩, ⟨3, "done".toList⟩] none =
      [⟨"a.txt".toList, "txt".toList, ⟨0, "code:a.txt".toList⟩,
        [⟨1, "  hello".toList⟩, ⟨2, "  world".toList⟩],
        some ⟨3, "done".toList⟩⟩] := by
  constructor
  · intro lines flt b hb l hl
    rcases getCodeBlocks_good lines flt b hb with hcl | ⟨cur, hop⟩
    · obtain ⟨ct, nl, -, -, -, -, pre, post, hdec⟩ := hcl
      rw [hdec]
      have hmid : l ∈ b.titleLine :: (b.bodyLines ++ [nl]) :=
        List.mem_cons_of_mem _ (List.mem_append_left _ hl)
      exact List.mem_append_left post (List.mem_append_right pre hmid)
    · obtain ⟨ct, -, -, -, -, -, -, pre, hdec⟩ := hop
      rw [hdec]
      exact List.mem_append_right pre (List.mem_cons_of_mem _ hl)
  · decide

theorem claim_C4_witness :
    (⟨1, "  hello".toList⟩ : Line) ∈
      ([⟨0, "code:a.txt".toList⟩, ⟨1, "  hello".toList⟩,
        ⟨2, "  world".toList⟩, ⟨3, "done".toList⟩] : List Line) :=
  claim_C4_amended.1
    [⟨0, "code:a.txt".toList⟩, ⟨1, "  hello".toList⟩,
      ⟨2, "  world".toList⟩, ⟨3, "done".toList⟩] none
    ⟨"a.txt".toList, "txt".toList, ⟨0, "code:a.txt".toList⟩,
      [⟨1, "  hello".toList⟩, ⟨2, "  world".toList⟩], some ⟨3, "done".toList⟩⟩
    (by decide) ⟨1, "  hello".toList⟩ (by decide)

/-- C5 counterexample: the title `code:.py` has a filename (`.py`) that
contains a dot and does not end in one, so the claim says the language is
the substring after the final dot (`py`); the extension regex `.+\.(.*)$`
requires a character before the dot, fails on `.py`, and the code therefore
uses the whole filename `.py` as the language. -/
theorem claim_C5_counterexample :
    extractFromCodeTitle ("code:.py".toList) =
      some ⟨".py".toList, ".py".toList, 0⟩ ∧
    (extractFromCodeTitle ("code:.py".toList)).map (fun ct => ct.lang) ≠
      some ("py".toList) := by decide

/-- C5 amended: for a title line without a parenthesized tag (filename
`fn = trim(group 2)`): if `fn` has no dot past its first character the
language is the whole filename (this covers `Makefile` as well as `.py` or
`.`); if `fn` has a dot past its first character and ends in a dot the line
is rejected as a title; otherwise the language is the substring after the
final dot of `fn` (which is nonempty and dot-free). -/
theorem claim_C5_amended (s : Str) (m : TitleMatch)
    (hm : codeTitleMatch s = some m) (hg3 : m.g3 = none) :
    (¬('.' ∈ (trimStr m.g2).drop 1) →
      extractFromCodeTitle s =
        some ⟨trimStr m.g2, trimStr m.g2, m.g1.length⟩) ∧
    ('.' ∈ (trimStr m.g2).drop 1 → (trimStr m.g2).getLast? = some '.' →
      extractFromCodeTitle s = none) ∧
    ('.' ∈ (trimStr m.g2).drop 1 → (trimStr m.g2).getLast? ≠ some '.' →
      ∃ pre lang, trimStr m.g2 = pre ++ '.' :: lang ∧ lang ≠ [] ∧
        (¬('.' ∈ lang)) ∧
        extractFromCodeTitle s = some ⟨trimStr m.g2, lang, m.g1.length⟩) := by
  have hall : (trimStr m.g2).all isDotChar = true :=
    trimStr_all (codeTitleMatch_g2_all hm)
  have hx := extractFromCodeTitle_noTag hm hg3
  refine ⟨?_, ?_, ?_⟩
  · intro hnd
    cases hext : extMatch (trimStr m.g2) with
    | none => rw [hx, hext]
    | some ext1 => exact absurd (extMatch_some_mem hext) hnd
  · intro hd hlast
    cases hext : extMatch (trimStr m.g2) with
    | none => exact absurd hd (extMatch_none_mem hall hext)
    | some ext1 =>
      rw [hx, hext]
      dsimp only
      have hnil : ext1 = [] := by
        by_contra hne
        exact (extMatch_ne_nil_getLast hext hne) hlast
      rw [if_pos hnil]
  · intro hd hlast
    cases hext : extMatch (trimStr m.g2) with
    | none => exact absurd hd (extMatch_none_mem hall hext)
    | some ext1 =>
      have hne : ext1 ≠ [] := by
        intro hnil
        subst hnil
        exact hlast (extMatch_nil_getLast hext)
      obtain ⟨⟨pre, hpre⟩, hmem⟩ := extMatch_decomp hext
      refine ⟨pre, ext1, hpre, hne, ?_, ?_⟩
      · intro hin
        exact hmem '.' hin rfl
      · rw [hx, hext]
        dsimp only
        rw [if_neg hne]

theorem claim_C5_witness :
    extractFromCodeTitle ("code:c.".toList) = none ∧
    ∃ pre lang, trimStr ("a.b.c".toList) = pre ++ '.' :: lang ∧ lang ≠ [] ∧
      (¬('.' ∈ lang)) ∧
      extractFromCodeTitle ("code:a.b.c".toList) =
        some ⟨trimStr ("a.b.c".toList), lang, ([] : Str).length⟩ :=
  ⟨(claim_C5_amended ("code:c.".toList) ⟨[], "c.".toList, none⟩
      (by decide) rfl).2.1 (by decide) (by decide),
   (claim_C5_amended ("code:a.b.c".toList) ⟨[], "a.b.c".toList, none⟩
      (by decide) rfl).2.2 (by decide) (by decide)⟩

end Scrapbox

namespace Scrapbox

/-- C6: every emitted TinyCodeBlock's bodyLines contains only lines whose
leading-whitespace length strictly exceeds the title line's indentation,
contiguous in source order with no gaps (title, body and nextLine sit
consecutively inside the input); nextLine, when present, is exactly the line
that caused termination (it fails the body test), and the first line failing
the body test is never included in bodyLines; a block that runs to the end
of the input keeps nextLine absent (title and body form a suffix of the
input). -/
theorem claim_C6 (lines : List Line) (flt : Option GetCodeBlocksFilter)
    (b : TinyCodeBlock) (hb : b ∈ getCodeBlocks lines flt) :
    (∀ l ∈ b.bodyLines,
      (b.titleLine.text.takeWhile isWs).length <
        (l.text.takeWhile isWs).length) ∧
    (∀ nl, b.nextLine = some nl →
      extractFromCodeBody nl.text
        ((b.titleLine.text.takeWhile isWs).length) = none ∧
      ∃ pre post,
        lines = pre ++ (b.titleLine :: (b.bodyLines ++ [nl])) ++ post) ∧
    (b.nextLine = none →
      ∃ pre, lines = pre ++ (b.titleLine :: b.bodyLines)) := by
  rcases getCodeBlocks_good lines flt b hb with hcl | ⟨cur, hop⟩
  · obtain ⟨ct, nl0, hct, hnl, hbo, hterm, pre, post, hdec⟩ := hcl
    have hind : ct.indent = (b.titleLine.text.takeWhile isWs).length :=
      extractFromCodeTitle_indent hct
    refine ⟨?_, ?_, ?_⟩
    · intro l hl
      have hlt := extractFromCodeBody_lt (hbo l hl)
      rw [hind] at hlt
      exact hlt
    · intro nl hnl2
      rw [hnl] at hnl2
      rcases Option.some.inj hnl2 with rfl
      exact ⟨by rw [← hind]; exact hterm, pre, post, hdec⟩
    · intro hnone
      rw [hnone] at hnl
      cases hnl
  · obtain ⟨ct, hct, -, -, -, hnl, hbo, pre, hdec⟩ := hop
    have hind : ct.indent = (b.titleLine.text.takeWhile isWs).length :=
      extractFromCodeTitle_indent hct
    refine ⟨?_, ?_, ?_⟩
    · intro l hl
      have hlt := extractFromCodeBody_lt (hbo l hl)
      rw [hind] at hlt
      exact hlt
    · intro nl hnl2
      rw [hnl] at hnl2
      cases hnl2
    · intro _
      exact ⟨pre, hdec⟩

def linesC6 : List Line :=
  [⟨0, "code:a.txt".toList⟩, ⟨1, "  hello".toList⟩, ⟨2, "  world".toList⟩,
   ⟨3, "done".toList⟩]

def blockC6 : TinyCodeBlock :=
  ⟨"a.txt".toList, "txt".toList, ⟨0, "code:a.txt".toList⟩,
   [⟨1, "  hello".toList⟩, ⟨2, "  world".toList⟩], some ⟨3, "done".toList⟩⟩

theorem claim_C6_witness :
    (∀ l ∈ blockC6.bodyLines,
      (blockC6.titleLine.text.takeWhile isWs).length <
        (l.text.takeWhile isWs).length) ∧
    (∀ nl, blockC6.nextLine = some nl →
      extractFromCodeBody nl.text
        ((blockC6.titleLine.text.takeWhile isWs).length) = none ∧
      ∃ pre post,
        linesC6 = pre ++ (blockC6.titleLine :: (blockC6.bodyLines ++ [nl])) ++
          post) ∧
    (blockC6.nextLine = none →
      ∃ pre, linesC6 = pre ++ (blockC6.titleLine :: blockC6.bodyLines)) :=
  claim_C6 linesC6 none blockC6 (by decide)

/-- C7: filter selectivity.  A filter matching none of the unfiltered run's
blocks yields the empty output; a filter matching exactly one of them yields
exactly that block, field-for-field equal to the unfiltered entry. -/
theorem claim_C7 (lines : List Line) (flt : GetCodeBlocksFilter) :
    ((∀ b ∈ getCodeBlocks lines none, blockMatches flt b = false) →
      getCodeBlocks lines (some flt) = []) ∧
    (∀ b ∈ getCodeBlocks lines none,
      blockMatches flt b = true →
      (getCodeBlocks lines none).countP (blockMatches flt) = 1 →
      getCodeBlocks lines (some flt) = [b]) := by
  constructor
  · intro hnone
    rw [getCodeBlocks_filter, List.filter_eq_nil_iff]
    intro a ha
    rw [hnone a ha]
    simp
  · intro b hb hmatch hcount
    rw [getCodeBlocks_filter]
    have hlen : ((getCodeBlocks lines none).filter (blockMatches flt)).length
        = 1 := by
      rw [← List.countP_eq_length_filter]
      exact hcount
    have hbmem : b ∈ (getCodeBlocks lines none).filter (blockMatches flt) :=
      List.mem_filter.mpr ⟨hb, hmatch⟩
    cases hfl : (getCodeBlocks lines none).filter (blockMatches flt) with
    | nil =>
      rw [hfl] at hbmem
      cases hbmem
    | cons x xs =>
      rw [hfl] at hlen hbmem
      cases xs with
      | nil =>
        rcases List.mem_singleton.mp hbmem with rfl
        rfl
      | cons y ys => simp at hlen

def linesC7 : List Line :=
  [⟨0, "code:a.py".toList⟩, ⟨1, "stop".toList⟩, ⟨2, "code:b.js".toList⟩,
   ⟨3, "end".toList⟩]

def blockC7 : TinyCodeBlock :=
  ⟨"b.js".toList, "js".toList, ⟨2, "code:b.js".toList⟩, [],
   some ⟨3, "end".toList⟩⟩

theorem claim_C7_witness :
    getCodeBlocks linesC7 (some ⟨none, some ("rb".toList)⟩) = [] ∧
    getCodeBlocks linesC7 (some ⟨none, some ("js".toList)⟩) = [blockC7] :=
  ⟨(claim_C7 linesC7 ⟨none, some ("rb".toList)⟩).1 (by decide),
   (claim_C7 linesC7 ⟨none, some ("js".toList)⟩).2 blockC7 (by decide)
     (by decide) (by decide)⟩

/-- C8: the empty input yields the empty output; an input in which no line
opens a collected block (no title recognized, or every recognized title
fails the filter) yields the empty output, with no failure (the extractor is
a total function); and the output lists blocks in source order — the
sequence of their title lines is a sublist of the input. -/
theorem claim_C8 (flt : Option GetCodeBlocksFilter) :
    getCodeBlocks [] flt = [] ∧
    (∀ lines : List Line, (∀ l ∈ lines, noMatchLine flt l = true) →
      getCodeBlocks lines flt = []) ∧
    (∀ lines : List Line,
      List.Sublist ((getCodeBlocks lines flt).map (fun b => b.titleLine))
        lines) := by
  refine ⟨rfl, ?_, ?_⟩
  · intro lines hall
    unfold getCodeBlocks
    rw [noCollect_fold flt lines initialCurrentCode [] hall
      (by intro h1; simp [initialCurrentCode] at h1)]
    rfl
  · intro lines
    obtain ⟨-, -, hsub⟩ := getCodeBlocks_stateGood lines flt
    exact hsub

theorem claim_C8_witness :
    getCodeBlocks [] (some ⟨none, some ("js".toList)⟩) = [] ∧
    getCodeBlocks [⟨0, "plain".toList⟩, ⟨1, "code:x.py".toList⟩]
      (some ⟨none, some ("js".toList)⟩) = [] :=
  ⟨(claim_C8 (some ⟨none, some ("js".toList)⟩)).1,
   (claim_C8 (some ⟨none, some ("js".toList)⟩)).2.1
     [⟨0, "plain".toList⟩, ⟨1, "code:x.py".toList⟩] (by decide)⟩

/-- C9: a filter whose filename and lang fields are present but equal to the
empty string is falsy on both conditions (JS truthiness), so it imposes no
constraint: the output equals that of the unfiltered run. -/
theorem claim_C9 (lines : List Line) :
    getCodeBlocks lines (some ⟨some [], some []⟩) =
      getCodeBlocks lines none := by
  rw [getCodeBlocks_filter]
  apply List.filter_eq_self.mpr
  intro b hb
  rfl

/-- C10: whenever the loop is about to write to the last element of the
output array (collecting and inside a block), the array is non-empty, its
last element (the head of the reversed accumulator) is the block opened by
the current title (same filename and lang, nextLine still unset), and every
other accumulated block is already closed (its nextLine set) — so the write
never indexes an empty array and never mutates a previously closed block. -/
theorem claim_C10 (lines : List Line) (flt : Option GetCodeBlocksFilter)
    (st : ExtractState)
    (hst : st = lines.foldl (getCodeBlocksStep flt) (initialCurrentCode, []))
    (h1 : st.1.isCodeBlock = true) (h2 : st.1.isCollect = true) :
    ∃ b t, st.2 = b :: t ∧ b.filename = st.1.fileName ∧
      b.lang = st.1.lang ∧ b.nextLine = none ∧
      ∀ b' ∈ t, b'.nextLine ≠ none := by
  subst hst
  obtain ⟨hopen, -, -⟩ := getCodeBlocks_stateGood lines flt
  obtain ⟨b, t, hbt, hob, hct⟩ := hopen ⟨h1, h2⟩
  obtain ⟨ct, -, -, hfn, hlg, hnl, -, -, -⟩ := hob
  refine ⟨b, t, hbt, hfn, hlg, hnl, ?_⟩
  intro b' hb'
  obtain ⟨ct', nl', -, hnl', -, -, -, -, -⟩ := hct b' hb'
  rw [hnl']
  simp

def stC10 : ExtractState :=
  ([⟨0, "code:a.txt".toList⟩] : List Line).foldl (getCodeBlocksStep none)
    (initialCurrentCode, [])

theorem claim_C10_witness :
    ∃ b t, stC10.2 = b :: t ∧ b.filename = stC10.1.fileName ∧
      b.lang = stC10.1.lang ∧ b.nextLine = none ∧
      ∀ b' ∈ t, b'.nextLine ≠ none :=
  claim_C10 [⟨0, "code:a.txt".toList⟩] none stC10 rfl (by decide) (by decide)

end Scrapbox
